import Mathlib

/-!
Verification of the coordinate/atlas utility subsystem (`abagen/utils.py`).

The Python source is shallowly embedded over exact rational arithmetic:

* coordinate batches are lists of 3-vectors `Fin 3 → ℚ` (or a shape-carrying
  matrix model `QMat` where the claim is about shape handling);
* the 4×4 affine matrix is `Matrix (Fin 4) (Fin 4) ℚ`;
* `np.linalg.solve affine coords` is modelled by the exact solution of the
  linear system, computed as `det⁻¹ • adjugate *ᵥ b` (for a nonsingular
  matrix this is the unique solution of `affine *ᵥ x = b`);
* `astype(int)` on a rational is truncation toward zero (`truncQ`);
* a raised Python exception is `Option.none`;
* a label volume for `get_unique_labels` / `check_atlas_info` is the flat
  list of its voxel values (`np.unique` flattens its input), while for
  `get_centroids` it is a shape-carrying 3-D array model `Volume`.
-/

namespace Abagen

/-- Model of `astype(int)` on a rational value: truncation toward zero. -/
def truncQ (q : ℚ) : ℤ := if 0 ≤ q then ⌊q⌋ else ⌈q⌉

/-- Appending the homogeneous coordinate: the row of ones stacked by
`_check_coord_inputs`, specialised to a single 3-vector column. -/
def homogenize (v : Fin 3 → ℚ) : Fin 4 → ℚ := ![v 0, v 1, v 2, 1]

/-- Dropping the homogeneous coordinate: the `[:3]` slice. -/
def firstThree (w : Fin 4 → ℚ) : Fin 3 → ℚ := fun i => w i.castSucc

/-- Embedding of `ijk_to_xyz` on one coordinate: homogenize, left-multiply by the affine,
drop the homogeneous row.  The result keeps its exact (fractional) values. -/
def ijk_to_xyz (affine : Matrix (Fin 4) (Fin 4) ℚ) (v : Fin 3 → ℚ) : Fin 3 → ℚ :=
  firstThree (affine.mulVec (homogenize v))

/-- The exact solution of the linear system `affine *ᵥ x = b` used by
`np.linalg.solve`, written with the adjugate so that it is executable. -/
def solveAffine (affine : Matrix (Fin 4) (Fin 4) ℚ) (b : Fin 4 → ℚ) : Fin 4 → ℚ :=
  (affine.det)⁻¹ • (affine.adjugate.mulVec b)

/-- Embedding of `xyz_to_ijk` on one coordinate: homogenize, solve the linear system
`affine · x = coords`, drop the homogeneous row, cast to integer
(truncation toward zero). -/
def xyz_to_ijk (affine : Matrix (Fin 4) (Fin 4) ℚ) (v : Fin 3 → ℚ) : Fin 3 → ℤ :=
  fun i => truncQ (firstThree (solveAffine affine (homogenize v)) i)

lemma truncQ_intCast (n : ℤ) : truncQ (n : ℚ) = n := by
  unfold truncQ
  split <;> simp

lemma solveAffine_mulVec (A : Matrix (Fin 4) (Fin 4) ℚ) (hA : A.det ≠ 0)
    (u : Fin 4 → ℚ) : solveAffine A (A.mulVec u) = u := by
  unfold solveAffine
  rw [Matrix.mulVec_mulVec, Matrix.adjugate_mul, Matrix.smul_mulVec_assoc,
    Matrix.one_mulVec, smul_smul, inv_mul_cancel₀ hA, one_smul]

lemma mulVec_solveAffine (A : Matrix (Fin 4) (Fin 4) ℚ) (hA : A.det ≠ 0)
    (b : Fin 4 → ℚ) : A.mulVec (solveAffine A b) = b := by
  unfold solveAffine
  rw [Matrix.mulVec_smul, Matrix.mulVec_mulVec, Matrix.mul_adjugate,
    Matrix.smul_mulVec_assoc, Matrix.one_mulVec, smul_smul, inv_mul_cancel₀ hA, one_smul]

/-- For an affine matrix (last row `[0,0,0,1]`) the homogeneous coordinate of
the transformed vector is again `1`. -/
lemma mulVec_homogenize_last (A : Matrix (Fin 4) (Fin 4) ℚ)
    (hrow : A 3 = ![0, 0, 0, 1]) (v : Fin 3 → ℚ) :
    A.mulVec (homogenize v) 3 = 1 := by
  simp [Matrix.mulVec, Matrix.dotProduct, hrow, Fin.sum_univ_four, homogenize]

lemma homogenize_firstThree (A : Matrix (Fin 4) (Fin 4) ℚ)
    (hrow : A 3 = ![0, 0, 0, 1]) (v : Fin 3 → ℚ) :
    homogenize (firstThree (A.mulVec (homogenize v))) = A.mulVec (homogenize v) := by
  funext j
  fin_cases j
  · rfl
  · rfl
  · rfl
  · exact (mulVec_homogenize_last A hrow v).symm

lemma truncQ_abs_le (q : ℚ) : |(truncQ q : ℚ)| ≤ |q| := by
  unfold truncQ
  split
  · rename_i h
    rw [abs_of_nonneg (by exact_mod_cast Int.floor_nonneg.mpr h), abs_of_nonneg h]
    exact Int.floor_le q
  · rename_i h
    have hq : q ≤ 0 := le_of_not_le h
    have hc : ⌈q⌉ ≤ 0 := Int.ceil_le.mpr (by exact_mod_cast hq)
    rw [abs_of_nonpos (by exact_mod_cast hc), abs_of_nonpos hq]
    exact neg_le_neg (Int.le_ceil q)

lemma truncQ_sub_lt (q : ℚ) : |q - (truncQ q : ℚ)| < 1 := by
  unfold truncQ
  split
  · rw [abs_of_nonneg (sub_nonneg.mpr (Int.floor_le q))]
    have := Int.lt_floor_add_one q
    linarith
  · rw [abs_of_nonpos (sub_nonpos.mpr (Int.le_ceil q))]
    have := Int.ceil_lt_add_one q
    linarith

/-- C1: round-trip of the coordinate transforms.  For every invertible 4×4
affine matrix (nonzero determinant and last row `[0,0,0,1]`) and every
integer voxel coordinate, `xyz_to_ijk` applied to the result of `ijk_to_xyz`
returns a coordinate within ±1 voxel per axis of the original (in exact
arithmetic the truncation of the exact integer solution is the identity, so
the discrepancy is in fact 0 ≤ 1 on each axis). -/
theorem roundtrip_xyz_ijk (A : Matrix (Fin 4) (Fin 4) ℚ) (hA : A.det ≠ 0)
    (hrow : A 3 = ![0, 0, 0, 1]) (v : Fin 3 → ℤ) (i : Fin 3) :
    |xyz_to_ijk A (ijk_to_xyz A (fun j => (v j : ℚ))) i - v i| ≤ 1 := by
  have key : xyz_to_ijk A (ijk_to_xyz A (fun j => (v j : ℚ))) i = v i := by
    simp only [xyz_to_ijk, ijk_to_xyz]
    rw [homogenize_firstThree A hrow, solveAffine_mulVec A hA]
    have hft : firstThree (homogenize (fun j => (v j : ℚ))) i = (v i : ℚ) := by
      fin_cases i <;> rfl
    rw [hft, truncQ_intCast]
  rw [key]
  simp

/-- Witness for C1 at the identity affine and voxel coordinate (1,2,3). -/
theorem roundtrip_xyz_ijk_witness :
    |xyz_to_ijk 1 (ijk_to_xyz 1 (fun j => ((![1, 2, 3] : Fin 3 → ℤ) j : ℚ))) 0 -
      (![1, 2, 3] : Fin 3 → ℤ) 0| ≤ 1 :=
  roundtrip_xyz_ijk 1 (by simp)
    (by funext j; fin_cases j <;> simp [Matrix.one_apply]) ![1, 2, 3] 0

/-- C7: `xyz_to_ijk` computes the exact solution of the linear system
`affine · x = coords` and truncates it toward zero (never moving away from
zero and never further than 1, so truncation rather than rounding), whereas
`ijk_to_xyz` returns the exact, possibly fractional, affine product. -/
theorem xyz_to_ijk_solves_and_truncates (A : Matrix (Fin 4) (Fin 4) ℚ)
    (hA : A.det ≠ 0) (v : Fin 3 → ℚ) :
    A.mulVec (solveAffine A (homogenize v)) = homogenize v
    ∧ (∀ i : Fin 3, xyz_to_ijk A v i = truncQ (solveAffine A (homogenize v) i.castSucc))
    ∧ (∀ q : ℚ, |(truncQ q : ℚ)| ≤ |q| ∧ |q - (truncQ q : ℚ)| < 1)
    ∧ (∀ i : Fin 3, ijk_to_xyz A v i = A.mulVec (homogenize v) i.castSucc) :=
  ⟨mulVec_solveAffine A hA _, fun _ => rfl,
    fun q => ⟨truncQ_abs_le q, truncQ_sub_lt q⟩, fun _ => rfl⟩

/-- Witness for C7 at the identity affine and coordinate (1,2,3). -/
theorem xyz_to_ijk_solves_witness :
    (1 : Matrix (Fin 4) (Fin 4) ℚ).mulVec (solveAffine 1 (homogenize ![1, 2, 3])) =
      homogenize ![1, 2, 3] :=
  (xyz_to_ijk_solves_and_truncates 1 (by simp) ![1, 2, 3]).1

/-- Minimum value of a list of rationals (0 for the empty list). -/
def listMin : List ℚ → ℚ
  | [] => 0
  | [x] => x
  | x :: y :: t => min x (listMin (y :: t))

/-- Model of `np.argmin`: index of the first occurrence of the minimum value. -/
def argmin : List ℚ → ℕ
  | [] => 0
  | [_] => 0
  | x :: y :: t => if x ≤ listMin (y :: t) then 0 else argmin (y :: t) + 1

/-- Squared Euclidean distance between two 3-vectors.  `cdist` computes the
Euclidean distance; since the square root is strictly monotone, `argmin` over
the exact squared distances agrees with `argmin` over the distances. -/
def sqdist (a b : Fin 3 → ℚ) : ℚ := ∑ i, (a i - b i) ^ 2

/-- Embedding of `closest_centroid`: Euclidean distances from `coords` to each centroid,
then `argmin` (first occurrence of the minimum). -/
def closest_centroid (coords : Fin 3 → ℚ) (centroids : List (Fin 3 → ℚ)) : ℕ :=
  argmin (centroids.map (sqdist coords))

lemma listMin_le {l : List ℚ} {x : ℚ} (hx : x ∈ l) : listMin l ≤ x := by
  induction l with
  | nil => cases hx
  | cons a t ih =>
    cases t with
    | nil =>
      rcases List.mem_singleton.mp hx with rfl
      exact le_refl _
    | cons b u =>
      rcases List.mem_cons.mp hx with rfl | hx
      · exact min_le_left _ _
      · exact le_trans (min_le_right _ _) (ih hx)

lemma argmin_lt_length {l : List ℚ} (hl : 0 < l.length) : argmin l < l.length := by
  induction l with
  | nil => cases hl
  | cons a t ih =>
    cases t with
    | nil => simp [argmin]
    | cons b u =>
      rw [argmin]
      split
      · simp
      · have := ih (by simp)
        simpa [Nat.succ_lt_succ_iff] using this

lemma getD_argmin_eq_listMin {l : List ℚ} (hl : 0 < l.length) :
    l.getD (argmin l) 0 = listMin l := by
  induction l with
  | nil => cases hl
  | cons a t ih =>
    cases t with
    | nil => simp [argmin, listMin]
    | cons b u =>
      rw [argmin]
      split
      · rename_i h
        simp only [List.getD_cons_zero, listMin]
        exact le_antisymm (le_min (le_refl a) h) (min_le_left _ _)
      · rename_i h
        have hmin : listMin (a :: b :: u) = listMin (b :: u) := by
          rw [listMin]
          exact min_eq_right (le_of_lt (lt_of_not_le h))
        simpa [hmin] using ih (by simp)

lemma getD_argmin_le {l : List ℚ} {j : ℕ} (hj : j < l.length) :
    l.getD (argmin l) 0 ≤ l.getD j 0 := by
  rw [getD_argmin_eq_listMin (lt_of_le_of_lt (Nat.zero_le j) hj)]
  have hmem : l.getD j 0 ∈ l := by
    rw [List.getD_eq_getElem l 0 hj]
    exact List.getElem_mem hj
  exact listMin_le hmem

lemma getD_lt_of_lt_argmin {l : List ℚ} {j : ℕ} (hj : j < argmin l) :
    l.getD (argmin l) 0 < l.getD j 0 := by
  induction l generalizing j with
  | nil => simp [argmin] at hj
  | cons a t ih =>
    cases t with
    | nil => simp [argmin] at hj
    | cons b u =>
      rw [argmin] at hj ⊢
      split
      · rename_i h
        rw [if_pos h] at hj
        cases hj
      · rename_i h
        rw [if_neg h] at hj
        cases j with
        | zero =>
          have h1 : listMin (b :: u) < a := lt_of_not_le h
          have h2 : (b :: u).getD (argmin (b :: u)) 0 = listMin (b :: u) :=
            getD_argmin_eq_listMin (by simp)
          rw [List.getD_cons_succ, List.getD_cons_zero, h2]
          exact h1
        | succ j =>
          rw [List.getD_cons_succ, List.getD_cons_succ]
          exact ih (by omega)

/-- If index `k` attains the minimum and every earlier index is strictly
worse, then `argmin` returns exactly `k`. -/
lemma argmin_eq_of {l : List ℚ} {k : ℕ} (hk : k < l.length)
    (hmin : ∀ j, j < l.length → l.getD k 0 ≤ l.getD j 0)
    (hfirst : ∀ j, j < k → l.getD k 0 < l.getD j 0) : argmin l = k := by
  rcases Nat.lt_trichotomy (argmin l) k with h | h | h
  · have h1 := hfirst (argmin l) h
    have h2 := getD_argmin_le hk
    exact absurd (lt_of_le_of_lt h2 h1) (lt_irrefl _)
  · exact h
  · have h1 := getD_lt_of_lt_argmin h
    have h2 := hmin (argmin l) (argmin_lt_length (lt_of_le_of_lt (Nat.zero_le k) hk))
    exact absurd (lt_of_le_of_lt h2 h1) (lt_irrefl _)

lemma sqdist_nonneg (a b : Fin 3 → ℚ) : 0 ≤ sqdist a b :=
  Finset.sum_nonneg fun _ _ => sq_nonneg _

lemma sqdist_self (a : Fin 3 → ℚ) : sqdist a a = 0 := by
  simp [sqdist]

lemma sqdist_eq_zero_iff (a b : Fin 3 → ℚ) : sqdist a b = 0 ↔ a = b := by
  constructor
  · intro h
    funext i
    have hz := (Finset.sum_eq_zero_iff_of_nonneg fun j _ => sq_nonneg (a j - b j)).mp h
    have hi := sq_eq_zero_iff.mp (hz i (Finset.mem_univ i))
    linarith
  · rintro rfl
    exact sqdist_self a

lemma getD_map_sqdist (q : Fin 3 → ℚ) (cs : List (Fin 3 → ℚ)) {j : ℕ}
    (hj : j < cs.length) :
    (cs.map (sqdist q)).getD j 0 = sqdist q (cs.getD j (fun _ => 0)) := by
  rw [List.getD_eq_getElem?_getD, List.getD_eq_getElem?_getD,
    List.getElem?_map, List.getElem?_eq_getElem hj]
  simp

/-- C3: tie-break determinism of `closest_centroid`.  The returned index is in
range, attains the minimal (squared) Euclidean distance, every strictly
earlier index is at strictly larger distance (so among tied minima the lowest
index is returned), and repeated calls with identical inputs agree. -/
theorem closest_centroid_first_min (q : Fin 3 → ℚ) (cs : List (Fin 3 → ℚ))
    (hne : 0 < cs.length) :
    closest_centroid q cs < cs.length
    ∧ (∀ j, j < cs.length →
        sqdist q (cs.getD (closest_centroid q cs) (fun _ => 0)) ≤
          sqdist q (cs.getD j (fun _ => 0)))
    ∧ (∀ j, j < closest_centroid q cs →
        sqdist q (cs.getD (closest_centroid q cs) (fun _ => 0)) <
          sqdist q (cs.getD j (fun _ => 0)))
    ∧ closest_centroid q cs = closest_centroid q cs := by
  have hlen : (cs.map (sqdist q)).length = cs.length := List.length_map cs _
  have harg : argmin (cs.map (sqdist q)) < cs.length := by
    have h := argmin_lt_length (l := cs.map (sqdist q)) (by rw [hlen]; exact hne)
    rwa [hlen] at h
  refine ⟨harg, fun j hj => ?_, fun j hj => ?_, rfl⟩
  · have h := getD_argmin_le (l := cs.map (sqdist q)) (j := j) (by rw [hlen]; exact hj)
    rw [getD_map_sqdist q cs harg, getD_map_sqdist q cs hj] at h
    exact h
  · have h := getD_lt_of_lt_argmin (l := cs.map (sqdist q)) (j := j) hj
    rw [getD_map_sqdist q cs harg, getD_map_sqdist q cs (lt_trans hj harg)] at h
    exact h

/-- Witness for C3 on a concrete one-element centroid collection. -/
theorem closest_centroid_first_min_witness :
    closest_centroid (fun _ => (0 : ℚ)) [fun _ => 0] <
      ([fun _ => 0] : List (Fin 3 → ℚ)).length :=
  (closest_centroid_first_min (fun _ => 0) [fun _ => 0] (by simp)).1

/-- C8 counterexample: with a duplicated centroid the query equal to centroid
1 resolves to index 0, not 1 (first occurrence of the tied minimum). -/
theorem closest_centroid_dup_cex :
    ([fun _ => 0, fun _ => 0] : List (Fin 3 → ℚ)).getD 1 (fun _ => 0) =
      (fun _ => (0 : ℚ))
    ∧ closest_centroid (fun _ => 0) [fun _ => 0, fun _ => 0] ≠ 1 := by
  refine ⟨rfl, ?_⟩
  norm_num [closest_centroid, sqdist, argmin, listMin]

/-- C8 (amended): if the query point equals centroid `k` and no centroid at a
lower index equals the query, then `closest_centroid` returns `k`. -/
theorem closest_centroid_self (q : Fin 3 → ℚ) (cs : List (Fin 3 → ℚ)) (k : ℕ)
    (hk : k < cs.length) (hq : cs.getD k (fun _ => 0) = q)
    (hfirst : ∀ j, j < k → cs.getD j (fun _ => 0) ≠ q) :
    closest_centroid q cs = k := by
  unfold closest_centroid
  apply argmin_eq_of (by simpa using hk)
  · intro j hj
    rw [getD_map_sqdist q cs hk, getD_map_sqdist q cs (by simpa using hj), hq,
      sqdist_self]
    exact sqdist_nonneg _ _
  · intro j hj
    rw [getD_map_sqdist q cs hk, getD_map_sqdist q cs (lt_trans hj hk), hq,
      sqdist_self]
    have hnz : sqdist q (cs.getD j (fun _ => 0)) ≠ 0 := by
      intro h0
      exact hfirst j hj ((sqdist_eq_zero_iff q _).mp h0).symm
    exact lt_of_le_of_ne (sqdist_nonneg _ _) (Ne.symm hnz)

/-- Witness for C8 (amended) on a two-centroid collection with distinct
centroids. -/
theorem closest_centroid_self_witness :
    closest_centroid (fun _ => (1 : ℚ)) [fun _ => 0, fun _ => 1] = 1 :=
  closest_centroid_self (fun _ => 1) [fun _ => 0, fun _ => 1] 1 (by simp) rfl
    (by
      intro j hj
      have hj0 : j = 0 := by omega
      subst hj0
      intro hcontra
      have h0 := congrFun hcontra 0
      exact absurd h0 (by norm_num))

/-- Model of `np.unique` on a (flattened) integer volume: the distinct values in
ascending order. -/
def npUnique (vol : List ℤ) : List ℤ :=
  (vol.dedup).insertionSort (· ≤ ·)

/-- Model of `np.trim_zeros`: remove zeros from both ends of a sequence. -/
def trimZeros (l : List ℤ) : List ℤ :=
  (((l.dropWhile (· == 0)).reverse.dropWhile (· == 0)).reverse)

/-- Embedding of `get_unique_labels`: sorted distinct values of the volume with zeros
trimmed from both ends (the `astype(int)` cast is the identity here since
the values are already integers). -/
def get_unique_labels (vol : List ℤ) : List ℤ :=
  trimZeros (npUnique vol)

lemma npUnique_perm (vol : List ℤ) : List.Perm (npUnique vol) vol.dedup :=
  List.perm_insertionSort _ _

lemma npUnique_sorted (vol : List ℤ) : (npUnique vol).Sorted (· ≤ ·) :=
  List.sorted_insertionSort _ _

lemma npUnique_nodup (vol : List ℤ) : (npUnique vol).Nodup :=
  (npUnique_perm vol).nodup_iff.mpr (List.nodup_dedup vol)

lemma mem_npUnique {vol : List ℤ} {x : ℤ} : x ∈ npUnique vol ↔ x ∈ vol := by
  rw [(npUnique_perm vol).mem_iff, List.mem_dedup]

lemma npUnique_toFinset (vol : List ℤ) : (npUnique vol).toFinset = vol.toFinset := by
  ext x
  rw [List.mem_toFinset, List.mem_toFinset, mem_npUnique]

/-- If the head of a nonempty list is nonzero, `dropWhile (· == 0)` is the
identity. -/
lemma dropWhile_zero_cons {a : ℤ} (t : List ℤ) (ha : a ≠ 0) :
    (a :: t).dropWhile (· == 0) = a :: t := by
  rw [List.dropWhile_cons_of_neg]
  simpa using ha

/-- In a `≤`-sorted list whose values are all nonnegative, dropping the
leading zeros leaves exactly the nonzero values. -/
lemma dropWhile_zero_sorted_nonneg {l : List ℤ} (hs : l.Sorted (· ≤ ·))
    (hpos : ∀ x ∈ l, 0 ≤ x) :
    l.dropWhile (· == 0) = l.filter (fun x => x != 0) := by
  induction l with
  | nil => rfl
  | cons a t ih =>
    by_cases ha : a = 0
    · subst ha
      rw [List.dropWhile_cons_of_pos (by simp)]
      rw [ih hs.of_cons (fun x hx => hpos x (List.mem_cons_of_mem _ hx))]
      simp
    · rw [dropWhile_zero_cons t ha]
      have htpos : ∀ x ∈ t, x ≠ 0 := by
        intro x hx
        have h1 : a ≤ x := List.rel_of_sorted_cons hs x hx
        have h2 : 0 ≤ a := hpos a (List.mem_cons_self a t)
        have h3 : 0 < a := lt_of_le_of_ne h2 (Ne.symm ha)
        omega
      rw [List.filter_cons_of_pos (by simpa using ha)]
      rw [List.filter_eq_self.mpr (fun x hx => by simpa using htpos x hx)]

/-- If no element of a list is zero, `dropWhile (· == 0)` is the identity. -/
lemma dropWhile_zero_of_no_zero {l : List ℤ} (h : ∀ x ∈ l, x ≠ 0) :
    l.dropWhile (· == 0) = l := by
  cases l with
  | nil => rfl
  | cons a t => exact dropWhile_zero_cons t (h a (List.mem_cons_self a t))

/-- Characterization of `trimZeros` on a sorted list of nonnegative values:
it is exactly the filter removing zeros. -/
lemma trimZeros_sorted_nonneg {l : List ℤ} (hs : l.Sorted (· ≤ ·))
    (hpos : ∀ x ∈ l, 0 ≤ x) :
    trimZeros l = l.filter (fun x => x != 0) := by
  rw [trimZeros, dropWhile_zero_sorted_nonneg hs hpos]
  have hnz : ∀ x ∈ (l.filter (fun x => x != 0)).reverse, x ≠ 0 := by
    intro x hx
    rw [List.mem_reverse] at hx
    simpa using (List.mem_filter.mp hx).2
  rw [dropWhile_zero_of_no_zero hnz, List.reverse_reverse]

/-- C5 counterexample: the volume `[-1, 0, 1]` contains the negative label
`-1`, so `trim_zeros` removes nothing and `get_unique_labels` returns a
sequence still containing 0 (its length, 3, also differs from the number of
distinct nonzero values, 2). -/
theorem get_unique_labels_neg_cex :
    (0 : ℤ) ∈ get_unique_labels [-1, 0, 1]
    ∧ (get_unique_labels [-1, 0, 1]).length ≠
        (([-1, 0, 1] : List ℤ).toFinset.filter (fun x => x ≠ 0)).card := by
  constructor
  · decide
  · decide

/-- C5 (amended): for every label volume whose values are nonnegative (the
documented invariant: region identifiers are positive integers, 0 is
background), `get_unique_labels` is strictly ascending, never contains 0,
has length equal to the number of distinct nonzero values present, and is
empty (not an error) on an all-zero volume. -/
theorem get_unique_labels_spec (vol : List ℤ) (hpos : ∀ x ∈ vol, 0 ≤ x) :
    (get_unique_labels vol).Sorted (· < ·)
    ∧ (0 : ℤ) ∉ get_unique_labels vol
    ∧ (get_unique_labels vol).length =
        (vol.toFinset.filter (fun x => x ≠ 0)).card
    ∧ ((∀ x ∈ vol, x = 0) → get_unique_labels vol = []) := by
  have hchar : get_unique_labels vol = (npUnique vol).filter (fun x => x != 0) :=
    trimZeros_sorted_nonneg (npUnique_sorted vol)
      (fun x hx => hpos x (mem_npUnique.mp hx))
  have hsortlt : (npUnique vol).Sorted (· < ·) :=
    (npUnique_sorted vol).lt_of_le (npUnique_nodup vol)
  refine ⟨?_, ?_, ?_, ?_⟩
  · rw [hchar]
    exact hsortlt.sublist (List.filter_sublist _)
  · rw [hchar]
    intro hmem
    have := (List.mem_filter.mp hmem).2
    simp at this
  · rw [hchar]
    have hnod : ((npUnique vol).filter (fun x => x != 0)).Nodup :=
      (npUnique_nodup vol).filter _
    rw [← List.toFinset_card_of_nodup hnod, List.toFinset_filter, npUnique_toFinset]
    congr 1
    apply Finset.filter_congr
    intro x _
    simp
  · intro hzero
    rw [hchar]
    apply List.filter_eq_nil_iff.mpr
    intro a ha
    have := hzero a (mem_npUnique.mp ha)
    simp [this]

/-- Witness for C5 (amended) on the volume `[0, 0, 1]`. -/
theorem get_unique_labels_spec_witness :
    (0 : ℤ) ∉ get_unique_labels [0, 0, 1] :=
  (get_unique_labels_spec [0, 0, 1] (by decide)).2.1

/-- C10: if a volume contains a negative label together with the label 0 and
a positive label, then 0 is still returned by `get_unique_labels`: the
zeros are no longer at the ends of the sorted distinct values, so
`trim_zeros` does not remove them. -/
theorem get_unique_labels_keeps_zero (vol : List ℤ)
    (hneg : ∃ a ∈ vol, a < 0) (hz : (0 : ℤ) ∈ vol) (hpos : ∃ b ∈ vol, 0 < b) :
    (0 : ℤ) ∈ get_unique_labels vol := by
  obtain ⟨a, ha, haneg⟩ := hneg
  obtain ⟨b, hb, hbpos⟩ := hpos
  have hz' : (0 : ℤ) ∈ npUnique vol := mem_npUnique.mpr hz
  have ha' : a ∈ npUnique vol := mem_npUnique.mpr ha
  have hb' : b ∈ npUnique vol := mem_npUnique.mpr hb
  have hs := npUnique_sorted vol
  -- the head of the sorted list is ≤ a < 0, so the forward dropWhile is the identity
  obtain ⟨h, t, hl⟩ : ∃ h t, npUnique vol = h :: t := by
    cases hnu : npUnique vol with
    | nil => rw [hnu] at hz'; cases hz'
    | cons h t => exact ⟨h, t, rfl⟩
  rw [hl] at hz' ha' hb' hs
  have hhead : h < 0 := by
    rcases List.mem_cons.mp ha' with rfl | hmem
    · exact haneg
    · exact lt_of_le_of_lt (List.rel_of_sorted_cons hs a hmem) haneg
  have hfwd : (h :: t).dropWhile (· == 0) = h :: t :=
    dropWhile_zero_cons t (by omega)
  -- the head of the reversed list is ≥ b > 0, so the backward dropWhile is
  -- also the identity
  have hsrev : ((h :: t).reverse).Pairwise (fun x y => y ≤ x) :=
    List.pairwise_reverse.mpr hs
  obtain ⟨h2, t2, hl2⟩ : ∃ h2 t2, (h :: t).reverse = h2 :: t2 := by
    cases hr : (h :: t).reverse with
    | nil =>
      have := congrArg List.length hr
      simp at this
    | cons h2 t2 => exact ⟨h2, t2, rfl⟩
  have hbrev : b ∈ (h :: t).reverse := List.mem_reverse.mpr hb'
  rw [hl2] at hbrev hsrev
  have hhead2 : 0 < h2 := by
    rcases List.mem_cons.mp hbrev with rfl | hmem
    · exact hbpos
    · exact lt_of_lt_of_le hbpos (List.rel_of_pairwise_cons hsrev hmem)
  have hbwd : (h2 :: t2).dropWhile (· == 0) = h2 :: t2 :=
    dropWhile_zero_cons t2 (by omega)
  rw [get_unique_labels, trimZeros, hl, hfwd, hl2, hbwd, ← hl2,
    List.reverse_reverse]
  exact hz'

/-- Witness for C10 on the volume `[-1, 0, 1]`. -/
theorem get_unique_labels_keeps_zero_witness :
    (0 : ℤ) ∈ get_unique_labels [-1, 0, 1] :=
  get_unique_labels_keeps_zero [-1, 0, 1] ⟨-1, by decide, by decide⟩ (by decide)
    ⟨1, by decide, by decide⟩

/-- Atlas metadata table: its column names and the values of its `id`
column.  (Reading a csv path into a table is I/O and is not modelled; the
claim concerns the validation of an already-loaded table.) -/
structure AtlasInfo where
  columns : List String
  ids : List ℤ

/-- The condition asserted by `check_atlas_info`: the table has columns
`id`, `hemisphere` and `structure`, and `np.setdiff1d(ids, info.id)` is
empty, i.e. every label of the atlas volume appears in the id column. -/
def atlas_info_ok (atlas : List ℤ) (info : AtlasInfo) : Bool :=
  (["id", "hemisphere", "structure"].all fun c => info.columns.contains c)
    && ((get_unique_labels atlas).all fun l => info.ids.contains l)

/-- Embedding of `check_atlas_info`: returns the table unchanged when `atlas_info_ok`
holds, otherwise raises `ValueError` (modelled as `none`). -/
def check_atlas_info (atlas : List ℤ) (info : AtlasInfo) : Option AtlasInfo :=
  if atlas_info_ok atlas info then some info else none

lemma atlas_info_ok_iff (atlas : List ℤ) (info : AtlasInfo) :
    atlas_info_ok atlas info = true ↔
      (("id" ∈ info.columns) ∧ ("hemisphere" ∈ info.columns)
        ∧ ("structure" ∈ info.columns)
        ∧ ∀ l ∈ get_unique_labels atlas, l ∈ info.ids) := by
  simp [atlas_info_ok, and_assoc]

/-- C9: `check_atlas_info` fails exactly when the table lacks one of the
columns `id`, `hemisphere`, `structure` or some label present in the atlas
volume (per `get_unique_labels`) is missing from the `id` column; otherwise
it returns the loaded table unchanged. -/
theorem check_atlas_info_spec (atlas : List ℤ) (info : AtlasInfo) :
    (check_atlas_info atlas info = some info ↔
      (("id" ∈ info.columns) ∧ ("hemisphere" ∈ info.columns)
        ∧ ("structure" ∈ info.columns)
        ∧ ∀ l ∈ get_unique_labels atlas, l ∈ info.ids))
    ∧ (check_atlas_info atlas info = none ↔
      ¬ (("id" ∈ info.columns) ∧ ("hemisphere" ∈ info.columns)
        ∧ ("structure" ∈ info.columns)
        ∧ ∀ l ∈ get_unique_labels atlas, l ∈ info.ids)) := by
  rw [check_atlas_info]
  by_cases hc : atlas_info_ok atlas info = true
  · have hp := (atlas_info_ok_iff atlas info).mp hc
    rw [if_pos hc]
    exact ⟨⟨fun _ => hp, fun _ => rfl⟩,
      ⟨fun h => Option.noConfusion h, fun h => absurd hp h⟩⟩
  · have hp := fun h => hc ((atlas_info_ok_iff atlas info).mpr h)
    rw [if_neg hc]
    exact ⟨⟨fun h => Option.noConfusion h, fun h => absurd h hp⟩,
      ⟨fun _ => hp, fun _ => rfl⟩⟩

/-- Witness for C9 on a concrete atlas and table. -/
theorem check_atlas_info_spec_witness :
    check_atlas_info [1] (AtlasInfo.mk ["id", "hemisphere", "structure"] [1]) =
      some (AtlasInfo.mk ["id", "hemisphere", "structure"] [1]) :=
  (check_atlas_info_spec [1] (AtlasInfo.mk ["id", "hemisphere", "structure"] [1])).1.mpr
    (by refine ⟨by decide, by decide, by decide, ?_⟩; decide)

/-- A 3-D label volume: its shape and its integer value at each index. -/
structure Volume where
  d1 : ℕ
  d2 : ℕ
  d3 : ℕ
  data : ℕ → ℕ → ℕ → ℤ

/-- The index grid of the volume. -/
def voxels (vol : Volume) : Finset (ℕ × ℕ × ℕ) :=
  (Finset.range vol.d1) ×ˢ (Finset.range vol.d2) ×ˢ (Finset.range vol.d3)

/-- The boolean mask `image_data == label` as the set of selected indices. -/
def regionVoxels (vol : Volume) (label : ℤ) : Finset (ℕ × ℕ × ℕ) :=
  (voxels vol).filter fun p => vol.data p.1 p.2.1 p.2.2 = label

/-- Model of `scipy.ndimage.center_of_mass` of the indicator mask: the mean voxel
index over the selected voxels, one rational mean per axis. -/
def center_of_mass (vol : Volume) (label : ℤ) : ℚ × ℚ × ℚ :=
  ((∑ p in regionVoxels vol label, (p.1 : ℚ)) / (regionVoxels vol label).card,
   (∑ p in regionVoxels vol label, (p.2.1 : ℚ)) / (regionVoxels vol label).card,
   (∑ p in regionVoxels vol label, (p.2.2 : ℚ)) / (regionVoxels vol label).card)

/-- Embedding of `get_centroids` (voxel-space output): one center of mass per requested
label, in the requested order. -/
def get_centroids (vol : Volume) (labels : List ℤ) : List (ℚ × ℚ × ℚ) :=
  labels.map (center_of_mass vol)

/-- C6: `get_centroids` returns exactly one centroid per requested region
identifier, in the same order as requested; and the centroid of a region
consisting of the single voxel `(i, j, k)` is exactly `(i, j, k)`. -/
theorem get_centroids_spec (vol : Volume) (labels : List ℤ) :
    (get_centroids vol labels).length = labels.length
    ∧ (∀ k, k < labels.length →
        (get_centroids vol labels).getD k (0, 0, 0) =
          center_of_mass vol (labels.getD k 0))
    ∧ (∀ lab i j k, regionVoxels vol lab = {(i, j, k)} →
        center_of_mass vol lab = ((i : ℚ), (j : ℚ), (k : ℚ))) := by
  refine ⟨List.length_map _ _, fun k hk => ?_, fun lab i j k hsing => ?_⟩
  · rw [List.getD_eq_getElem _ _ (by simpa [get_centroids] using hk),
      List.getD_eq_getElem _ _ hk]
    simp [get_centroids]
  · rw [center_of_mass, hsing]
    simp

/-- Witness for C6: the 3×3×3 volume with label 1 exactly at voxel (1,1,1)
has centroid (1,1,1) for label 1. -/
theorem get_centroids_spec_witness :
    center_of_mass
        (Volume.mk 3 3 3 fun i j k => if i = 1 ∧ j = 1 ∧ k = 1 then 1 else 0) 1 =
      ((1 : ℚ), (1 : ℚ), (1 : ℚ)) :=
  (get_centroids_spec
        (Volume.mk 3 3 3 fun i j k => if i = 1 ∧ j = 1 ∧ k = 1 then 1 else 0)
        []).2.2 1 1 1 1 (by decide)

/-- A 2-D array of rationals: shape and entries. -/
structure QMat where
  rows : ℕ
  cols : ℕ
  entry : ℕ → ℕ → ℚ

/-- Model of `np.ndarray.T`. -/
def QMat.transpose (m : QMat) : QMat :=
  QMat.mk m.cols m.rows fun i j => m.entry j i

/-- Model of `np.row_stack([coords, np.ones_like(coords[0])])`: append a row of
ones. -/
def appendOnes (m : QMat) : QMat :=
  QMat.mk (m.rows + 1) m.cols fun i j => if i = m.rows then 1 else m.entry i j

/-- Embedding of `_check_coord_inputs` on an (already 2-D) coordinate batch: transpose,
raise unless some axis has length 3 (`3 not in coords.shape`), transpose
back when axis 0 is not the one of length 3, then append the homogeneous
row of ones. -/
def check_coord_inputs (m : QMat) : Option QMat :=
  if m.transpose.rows ≠ 3 ∧ m.transpose.cols ≠ 3 then none
  else some (appendOnes
    (if m.transpose.rows ≠ 3 then m.transpose.transpose else m.transpose))

/-- C4: the coordinate-shape validation raises exactly when neither axis of
the 2-D batch has length 3; when exactly one axis has length 3 the batch is
oriented with axes as rows (a 3×N array), a fourth row of ones is appended,
and no error is raised. -/
theorem check_coord_inputs_spec (m : QMat) :
    (check_coord_inputs m = none ↔ (m.rows ≠ 3 ∧ m.cols ≠ 3))
    ∧ (m.rows = 3 ∧ m.cols ≠ 3 →
        check_coord_inputs m = some (appendOnes m)
        ∧ (appendOnes m).rows = 4
        ∧ (appendOnes m).cols = m.cols
        ∧ (∀ i j, i < 3 → (appendOnes m).entry i j = m.entry i j)
        ∧ (∀ j, (appendOnes m).entry 3 j = 1))
    ∧ (m.cols = 3 ∧ m.rows ≠ 3 →
        check_coord_inputs m = some (appendOnes m.transpose)
        ∧ (appendOnes m.transpose).rows = 4
        ∧ (appendOnes m.transpose).cols = m.rows
        ∧ (∀ i j, i < 3 → (appendOnes m.transpose).entry i j = m.entry j i)
        ∧ (∀ j, (appendOnes m.transpose).entry 3 j = 1)) := by
  refine ⟨?_, fun h => ?_, fun h => ?_⟩
  · rw [check_coord_inputs]
    by_cases hc : m.transpose.rows ≠ 3 ∧ m.transpose.cols ≠ 3
    · rw [if_pos hc]
      simp only [QMat.transpose] at hc
      exact ⟨fun _ => ⟨hc.2, hc.1⟩, fun _ => rfl⟩
    · rw [if_neg hc]
      simp only [QMat.transpose] at hc
      refine ⟨fun hx => Option.noConfusion hx, fun hx => absurd ⟨hx.2, hx.1⟩ hc⟩
  · obtain ⟨hr, hcne⟩ := h
    have hcond : ¬(m.transpose.rows ≠ 3 ∧ m.transpose.cols ≠ 3) := by
      simp only [QMat.transpose]
      intro hx
      exact hx.2 hr
    have hinner : m.transpose.rows ≠ 3 := hcne
    rw [check_coord_inputs, if_neg hcond, if_pos hinner]
    refine ⟨rfl, by simp [appendOnes, hr], rfl, fun i j hij => ?_, fun j => ?_⟩
    · show (if i = m.rows then (1 : ℚ) else m.entry i j) = m.entry i j
      rw [if_neg (by omega)]
    · show (if 3 = m.rows then (1 : ℚ) else m.entry 3 j) = 1
      rw [if_pos (by omega)]
  · obtain ⟨hcq, hrne⟩ := h
    have hcond : ¬(m.transpose.rows ≠ 3 ∧ m.transpose.cols ≠ 3) := by
      simp only [QMat.transpose]
      intro hx
      exact hx.1 hcq
    have hinner : ¬m.transpose.rows ≠ 3 := by
      simp only [QMat.transpose]
      omega
    rw [check_coord_inputs, if_neg hcond, if_neg hinner]
    refine ⟨rfl, by simp [appendOnes, QMat.transpose, hcq], rfl,
      fun i j hij => ?_, fun j => ?_⟩
    · show (if i = m.transpose.rows then (1 : ℚ) else m.entry j i) = m.entry j i
      simp only [QMat.transpose]
      rw [if_neg (by omega)]
    · show (if 3 = m.transpose.rows then (1 : ℚ) else m.entry j 3) = 1
      simp only [QMat.transpose]
      rw [if_pos (by omega)]

/-- Witness for C4 on a concrete 2×3 batch (two points, one axis of
length 3). -/
theorem check_coord_inputs_spec_witness :
    check_coord_inputs (QMat.mk 2 3 fun i j => (i : ℚ) + j) =
      some (appendOnes (QMat.mk 2 3 fun i j => (i : ℚ) + j).transpose) :=
  ((check_coord_inputs_spec (QMat.mk 2 3 fun i j => (i : ℚ) + j)).2.2
    ⟨rfl, by decide⟩).1

/-- Model of `np.arange start stop` over integers: start, start+1, ..., stop-1. -/
def npArange (start stop : ℤ) : List ℤ :=
  (List.range (stop - start).toNat).map fun n => start + (n : ℤ)

/-- Model of `np.arange` applied to array arguments: numpy converts each argument to
a scalar, which succeeds only for size-1 arrays; any other size raises
`TypeError`. -/
def npArangeArr (start stop : List ℤ) : Option (List ℤ) :=
  match start, stop with
  | [s], [t] => some (npArange s t)
  | _, _ => none

/-- The inner `expand` of `expand_roi`, applied to one row `x` of the 2-D
`coords` array: `np.arange(x - d, x + d + 1, dtype=int)` with array
arguments. -/
def expand (x : List ℤ) (d : ℤ) : Option (List ℤ) :=
  npArangeArr (x.map fun v => v - d) (x.map fun v => v + d + 1)

/-- Model of `itertools.product`: Cartesian product of the given ranges, the first
factor varying slowest. -/
def cartProd : List (List ℤ) → List (List ℤ)
  | [] => [[]]
  | l :: ls => l.flatMap fun a => (cartProd ls).map fun t => a :: t

/-- Embedding of `expand_roi` on the rows of the 2-D array `np.atleast_2d(coords)`:
`expand` every row, then form the Cartesian product of the results (with
`return_array=True` the generator is materialized into this list). -/
def expand_roi (coords : List (List ℤ)) (d : ℤ) : Option (List (List ℤ)) :=
  (coords.mapM fun n => expand n d).map cartProd

/-- C2 (code bug): for the documented flat `(3,)` input, `np.atleast_2d`
yields the single row `[c0, c1, c2]`, iterating the 1×3 array yields that
one length-3 row, and `np.arange` on a length-3 array raises `TypeError`:
`expand_roi` fails instead of producing the (2d+1)³ cube. -/
theorem expand_roi_flat_input_fails (c0 c1 c2 d : ℤ) :
    expand_roi [[c0, c1, c2]] d = none := rfl

/-- With the transpose that upstream applies (each row a size-1 array),
`expand_roi` does produce the Cartesian product of the three per-axis
ranges `[c - d, c + d]`, confirming the intended cube semantics. -/
theorem expand_roi_column_input (c0 c1 c2 d : ℤ) :
    expand_roi [[c0], [c1], [c2]] d =
      some (cartProd [npArange (c0 - d) (c0 + d + 1),
        npArange (c1 - d) (c1 + d + 1), npArange (c2 - d) (c2 + d + 1)]) := rfl

end Abagen
